import Mathlib

/-!
Verification development for the personal-trainer client's view-model
transformation logic: the calendar event transformer (Calendar.tsx,
fetchTrainings), the activity statistics aggregator (Statistics page,
fetchStats, built on lodash groupBy/sumBy and Array.prototype.sort),
the search/filter predicates (TrainingList.tsx filteredTrainings,
CustomerList.tsx filteredCustomers), the CSV export
(CustomerList.tsx handleExportCSV), and the fetch error handling of the
page controllers.

Modelling conventions:
- JavaScript strings are Lean `String`s; `toLowerCase` is modelled by
  mapping `Char.toLower` over the characters (`jsToLower`).
- `String.prototype.includes` is modelled by `jsIncludes`, a boolean
  contiguous-substring test.
- A JavaScript `Date` is modelled by its millisecond timestamp; an
  invalid date (NaN timestamp) is `none`. `jsDateParse` is a simplified
  executable model of `new Date(string)` for ISO-8601 strings
  (`YYYY-MM-DD`, optionally followed by `THH:MM` or `THH:MM:SS`); the
  exact numeric encoding of a valid timestamp is a simplified linear
  encoding, since no claim depends on the absolute value of a valid
  timestamp, only on parse success/failure and on start/end differences.
- Durations are integers (the spec's data model: duration in minutes,
  integer); the lodash `sumBy` on numeric durations is integer summation.
- lodash `groupBy` partitions a list by key into a plain JavaScript
  object, each group in input order, properties created in
  first-encountered key order. `Object.entries` of that object
  enumerates keys by the ECMAScript own-property order: keys that are
  canonical array indices (the decimal numerals `0` to `4294967294`
  without leading zeros) come first in ascending numeric order, the
  remaining string keys follow in property creation order
  (`jsObjectKeys`). Groups are recovered by filtering the input per
  key.
- `Array.prototype.sort` with the comparator `(a, b) => b.duration -
  a.duration` is required by ES2019 to be a stable sort; for the integer
  durations of the typed code the comparator is a consistent total
  preorder, so the result is the unique stable descending reordering,
  modelled by a stable insertion sort (`sortStats`).
-/

/-- Model of `String.prototype.toLowerCase` (character-wise lowering). -/
def jsToLower (s : String) : String :=
  String.mk (s.data.map Char.toLower)

/-- Contiguous-substring test on character lists: does the pattern `p`
occur inside the second list? Model of `String.prototype.includes`. -/
def jsIncludesChars (p : List Char) : List Char → Bool
  | [] => p.isEmpty
  | c :: rest => p.isPrefixOf (c :: rest) || jsIncludesChars p rest

/-- Model of `s.includes(sub)` for JavaScript strings. -/
def jsIncludes (s sub : String) : Bool :=
  jsIncludesChars sub.data s.data

/-- The Customer shape of `src/services/api.ts`: seven string fields and
an optional hypermedia self link (`_links.self.href`). -/
structure Customer where
  firstname : String
  lastname : String
  streetaddress : String
  postcode : String
  city : String
  email : String
  phone : String
  selfLink : Option String
deriving Repr, DecidableEq

/-- The Training shape of `src/services/api.ts`: numeric id, date string,
duration in minutes, activity name and an embedded Customer. -/
structure Training where
  id : Int
  date : String
  duration : Int
  activity : String
  customer : Customer
deriving Repr, DecidableEq

/-- The Training shape as consumed by the TrainingList search filter:
the code guards with `training.customer && ...`, so the embedded
customer is modelled as optional here (raw API rows may lack it). -/
structure TrainingRow where
  id : Int
  date : String
  duration : Int
  activity : String
  customer : Option Customer
deriving Repr, DecidableEq

/-- The CalendarEvent shape of `src/pages/Calendar.tsx`. `start` and
`endTime` are millisecond timestamps, `none` standing for an invalid
date (NaN). The source field name is `end`, a Lean keyword. -/
structure CalendarEvent where
  id : Int
  title : String
  start : Option Int
  endTime : Option Int
  customer : String
deriving Repr, DecidableEq

/-- The ActivityStats shape of the Statistics page: activity name and
summed duration. -/
structure ActivityStats where
  activity : String
  duration : Int
deriving Repr, DecidableEq

/-- Numeric value of a decimal digit character, `none` otherwise. -/
def digit? (c : Char) : Option Nat :=
  if c.isDigit then some (c.toNat - 48) else none

/-- Two decimal digit characters to a number. -/
def twoDigits (a b : Char) : Option Nat := do
  let x ← digit? a
  let y ← digit? b
  pure (x * 10 + y)

/-- Four decimal digit characters to a number. -/
def fourDigits (a b c d : Char) : Option Nat := do
  let x ← twoDigits a b
  let y ← twoDigits c d
  pure (x * 100 + y)

/-- Cumulative day count before each month (non-leap table; the
simplification is harmless, see the module comment). -/
def daysBeforeMonth (m : Nat) : Nat :=
  match m with
  | 1 => 0
  | 2 => 31
  | 3 => 59
  | 4 => 90
  | 5 => 120
  | 6 => 151
  | 7 => 181
  | 8 => 212
  | 9 => 243
  | 10 => 273
  | 11 => 304
  | _ => 334

/-- Millisecond timestamp of a broken-down date-time, after range
checks; `none` models the NaN timestamp of an invalid `Date`. -/
def mkTimestamp (y mo d h mi s : Nat) : Option Int :=
  if 1 ≤ mo ∧ mo ≤ 12 ∧ 1 ≤ d ∧ d ≤ 31 ∧ h ≤ 23 ∧ mi ≤ 59 ∧ s ≤ 59 then
    some ((((((y * 365 + daysBeforeMonth mo + (d - 1)) * 24 + h) * 60 + mi) * 60 + s) : Nat) * 1000)
  else
    none

/-- Simplified executable model of `new Date(string)` for ISO-8601 date
strings: accepts `YYYY-MM-DD`, `YYYY-MM-DDTHH:MM` and
`YYYY-MM-DDTHH:MM:SS`; every other string yields `none`, the invalid
date. -/
def jsDateParse (str : String) : Option Int :=
  match str.data with
  | [y1, y2, y3, y4, '-', m1, m2, '-', d1, d2] => do
      let y ← fourDigits y1 y2 y3 y4
      let mo ← twoDigits m1 m2
      let d ← twoDigits d1 d2
      mkTimestamp y mo d 0 0 0
  | [y1, y2, y3, y4, '-', m1, m2, '-', d1, d2, 'T', h1, h2, ':', n1, n2] => do
      let y ← fourDigits y1 y2 y3 y4
      let mo ← twoDigits m1 m2
      let d ← twoDigits d1 d2
      let h ← twoDigits h1 h2
      let mi ← twoDigits n1 n2
      mkTimestamp y mo d h mi 0
  | [y1, y2, y3, y4, '-', m1, m2, '-', d1, d2, 'T', h1, h2, ':', n1, n2, ':', s1, s2] => do
      let y ← fourDigits y1 y2 y3 y4
      let mo ← twoDigits m1 m2
      let d ← twoDigits d1 d2
      let h ← twoDigits h1 h2
      let mi ← twoDigits n1 n2
      let s ← twoDigits s1 s2
      mkTimestamp y mo d h mi s
  | _ => none

/-- The per-training event construction of `fetchTrainings` in
`Calendar.tsx`: title and customer concatenate activity and customer
names, `start` parses the date string, `end` adds `duration * 60000`
milliseconds to the parsed time (NaN propagates as `none`). -/
def calendarEvent (training : Training) : CalendarEvent :=
  { id := training.id
    title := training.activity ++ " / " ++ training.customer.firstname ++ " "
      ++ training.customer.lastname
    start := jsDateParse training.date
    endTime := (jsDateParse training.date).map (fun ms => ms + training.duration * 60000)
    customer := training.customer.firstname ++ " " ++ training.customer.lastname }

/-- The `trainings.map(...)` of `fetchTrainings` in `Calendar.tsx`. -/
def calendarEvents (trainings : List Training) : List CalendarEvent :=
  trainings.map calendarEvent

/-- First-occurrence deduplication: the distinct elements of a list in
first-encountered order. This is the property creation order of the
lodash `groupBy` result object; the enumeration order of
`Object.entries` is derived from it by `jsObjectKeys` below. -/
def firstDedup : List String → List String
  | [] => []
  | a :: rest => a :: (firstDedup rest).filter (fun b => b ≠ a)

/-- Numeric value of a digit list (most significant first; callers
check digitness). -/
def digitsVal (cs : List Char) : Nat :=
  cs.foldl (fun acc c => acc * 10 + (c.toNat - 48)) 0

/-- The array-index value of a string key, when the string is a
canonical array index in the ECMAScript sense: the decimal numeral of
an integer below `2^32 - 1`, with no leading zero (except `0`
itself). -/
def arrayIndexValue? (s : String) : Option Nat :=
  match s.data with
  | [] => none
  | ['0'] => some 0
  | c :: cs =>
    if c.isDigit ∧ c ≠ '0' ∧ cs.all Char.isDigit ∧ digitsVal (c :: cs) < 4294967295 then
      some (digitsVal (c :: cs))
    else none

/-- Is the string a canonical array-index key? -/
def isArrayIndexKey (s : String) : Bool :=
  (arrayIndexValue? s).isSome

/-- Insertion step of the ascending numeric sort of array-index keys. -/
def insertIndexKey (x : String) : List String → List String
  | [] => [x]
  | y :: ys =>
    if (arrayIndexValue? x).getD 0 ≤ (arrayIndexValue? y).getD 0 then x :: y :: ys
    else y :: insertIndexKey x ys

/-- Ascending numeric sort of array-index keys. -/
def sortIndexKeys : List String → List String
  | [] => []
  | x :: xs => insertIndexKey x (sortIndexKeys xs)

/-- ECMAScript own-property enumeration order of the `groupBy` object's
keys, as observed by `Object.entries`: canonical array-index keys
first, in ascending numeric order, then the remaining keys in property
creation (first-encountered) order. -/
def jsObjectKeys (l : List String) : List String :=
  sortIndexKeys ((firstDedup l).filter (fun s => isArrayIndexKey s)) ++
    (firstDedup l).filter (fun s => ! isArrayIndexKey s)

/-- lodash `sumBy(trainings, 'duration')` on numeric durations. -/
def sumBy (trainings : List Training) : Int :=
  (trainings.map (fun t => t.duration)).sum

/-- The `Object.entries(groupBy(trainings, 'activity')).map(...)` step
of `fetchStats`: one ActivityStats per distinct activity, keys in the
object's own-property enumeration order, duration the sum over the
group. -/
def activityStats (trainings : List Training) : List ActivityStats :=
  (jsObjectKeys (trainings.map (fun t => t.activity))).map
    (fun a => ⟨a, sumBy (trainings.filter (fun t => t.activity = a))⟩)

/-- One step of the stable descending insertion sort modelling
`activityStats.sort((a, b) => b.duration - a.duration)`. -/
def insertStat (x : ActivityStats) : List ActivityStats → List ActivityStats
  | [] => [x]
  | y :: ys => if y.duration ≤ x.duration then x :: y :: ys else y :: insertStat x ys

/-- Stable insertion sort by duration, descending; ties keep their
input order (ES2019 requires `Array.prototype.sort` to be stable). -/
def sortStats : List ActivityStats → List ActivityStats
  | [] => []
  | x :: xs => insertStat x (sortStats xs)

/-- The whole statistics transformation of the Statistics page's
`fetchStats`: group by activity, sum durations, sort descending. -/
def fetchStats (trainings : List Training) : List ActivityStats :=
  sortStats (activityStats trainings)

/-- The filter predicate of `filteredTrainings` in `TrainingList.tsx`:
the lowercased term must occur in the lowercased activity, or the
customer must be present and the term occur in the lowercased
`firstname lastname` concatenation (the JavaScript guard
`training.customer && ...` makes an absent customer a non-match). -/
def trainingMatches (searchTerm : String) (training : TrainingRow) : Bool :=
  let searchStr := jsToLower searchTerm
  jsIncludes (jsToLower training.activity) searchStr ||
    (match training.customer with
     | some c => jsIncludes (jsToLower (c.firstname ++ " " ++ c.lastname)) searchStr
     | none => false)

/-- `filteredTrainings` of `TrainingList.tsx`. -/
def filteredTrainings (searchTerm : String) (trainings : List TrainingRow) : List TrainingRow :=
  trainings.filter (fun training => trainingMatches searchTerm training)

/-- The filter predicate of `filteredCustomers` in `CustomerList.tsx`:
case-insensitive substring test on firstname, lastname, email or city. -/
def customerMatches (searchTerm : String) (customer : Customer) : Bool :=
  let searchStr := jsToLower searchTerm
  jsIncludes (jsToLower customer.firstname) searchStr ||
    jsIncludes (jsToLower customer.lastname) searchStr ||
    jsIncludes (jsToLower customer.email) searchStr ||
    jsIncludes (jsToLower customer.city) searchStr

/-- `filteredCustomers` of `CustomerList.tsx`. -/
def filteredCustomers (searchTerm : String) (customers : List Customer) : List Customer :=
  customers.filter (fun customer => customerMatches searchTerm customer)

/-- Untyped JavaScript values a raw API payload can put in the
`duration` field: a number, a string, or `undefined`. Floating-point
numbers are modelled as integers (the spec's durations are integral);
the claims settled with this type depend only on the value's kind. -/
inductive JsValue where
  | num (n : Int)
  | str (s : String)
  | undef
deriving Repr, DecidableEq

/-- The JavaScript binary `+` on the values above: numbers add, a
string operand concatenates (numbers converted by `String(...)`).
`undef` operands never reach `+` in `sumBy` (lodash skips `undefined`
iteratee results), so that case is mapped to `undef`. -/
def jsAdd : JsValue → JsValue → JsValue
  | JsValue.num a, JsValue.num b => JsValue.num (a + b)
  | JsValue.num a, JsValue.str b => JsValue.str (toString a ++ b)
  | JsValue.str a, JsValue.num b => JsValue.str (a ++ toString b)
  | JsValue.str a, JsValue.str b => JsValue.str (a ++ b)
  | JsValue.undef, _ => JsValue.undef
  | _, JsValue.undef => JsValue.undef

/-- One accumulation step of lodash `baseSum`: an `undefined` current
value is skipped, an `undefined` accumulator is replaced by the current
value, and otherwise the JavaScript `+` combines them. -/
def addSum (acc v : JsValue) : JsValue :=
  match v with
  | JsValue.undef => acc
  | _ =>
    match acc with
    | JsValue.undef => v
    | _ => jsAdd acc v

/-- lodash `sumBy` on raw values: `0` for an empty array, otherwise the
`baseSum` fold (which yields `undefined` when every value is skipped). -/
def sumByJs (vals : List JsValue) : JsValue :=
  match vals with
  | [] => JsValue.num 0
  | _ => vals.foldl addSum JsValue.undef

/-- A training record as the statistics aggregation sees raw API data:
only the grouping key and the (possibly non-numeric) duration matter. -/
structure TrainingJs where
  activity : String
  duration : JsValue
deriving Repr, DecidableEq

/-- ActivityStats over raw values. -/
structure ActivityStatsJs where
  activity : String
  duration : JsValue
deriving Repr, DecidableEq

/-- The grouping and summing step of `fetchStats` over raw values. -/
def activityStatsJs (trainings : List TrainingJs) : List ActivityStatsJs :=
  (jsObjectKeys (trainings.map (fun t => t.activity))).map
    (fun a => ⟨a, sumByJs ((trainings.filter (fun t => t.activity = a)).map (fun t => t.duration))⟩)

/-- Simplified `ToNumber` for the sort comparator: numeric strings
convert, anything else is NaN (`none`). -/
def jsToNumber : JsValue → Option Int
  | JsValue.num n => some n
  | JsValue.str s =>
      match s.data with
      | [] => some 0
      | cs => (cs.mapM digit?).map (fun ds => (ds.foldl (fun acc d => acc * 10 + d) 0 : Nat))
  | JsValue.undef => none

/-- Comparator decision modelling `b.duration - a.duration <= 0` for
the stable sort over raw values; a NaN comparison keeps positions (the
theorems below exercise this only on singleton lists, where any
comparator gives the same result). -/
def jsKeepBefore (x y : ActivityStatsJs) : Bool :=
  match jsToNumber y.duration, jsToNumber x.duration with
  | some b, some a => b ≤ a
  | _, _ => true

/-- Insertion step of the raw-value sort. -/
def insertStatJs (x : ActivityStatsJs) : List ActivityStatsJs → List ActivityStatsJs
  | [] => [x]
  | y :: ys => if jsKeepBefore x y then x :: y :: ys else y :: insertStatJs x ys

/-- Stable sort over raw values. -/
def sortStatsJs : List ActivityStatsJs → List ActivityStatsJs
  | [] => []
  | x :: xs => insertStatJs x (sortStatsJs xs)

/-- The whole statistics transformation over raw values. -/
def fetchStatsJs (trainings : List TrainingJs) : List ActivityStatsJs :=
  sortStatsJs (activityStatsJs trainings)

/-- A customer record as the CSV export sees raw API data: each of the
seven exported fields may be absent (`undefined`). Models the dynamic
`customer[field as keyof Customer]` access of `handleExportCSV`. -/
structure CustomerJson where
  firstname : Option String
  lastname : Option String
  email : Option String
  phone : Option String
  streetaddress : Option String
  postcode : Option String
  city : Option String
deriving Repr, DecidableEq

/-- A typed Customer as a raw record: every field present. -/
def Customer.toJson (c : Customer) : CustomerJson :=
  { firstname := some c.firstname
    lastname := some c.lastname
    email := some c.email
    phone := some c.phone
    streetaddress := some c.streetaddress
    postcode := some c.postcode
    city := some c.city }

/-- Dynamic field access `customer[field]` for the seven exported
field names. -/
def getFieldJson (c : CustomerJson) : String → Option String
  | "firstname" => c.firstname
  | "lastname" => c.lastname
  | "email" => c.email
  | "phone" => c.phone
  | "streetaddress" => c.streetaddress
  | "postcode" => c.postcode
  | "city" => c.city
  | _ => none

/-- JavaScript `String(value)` for a possibly absent string value:
`String(undefined)` is the literal text `undefined`. -/
def jsString : Option String → String
  | some s => s
  | none => "undefined"

/-- The `fields` array of `handleExportCSV`, in source order. -/
def csvFields : List String :=
  ["firstname", "lastname", "email", "phone", "streetaddress", "postcode", "city"]

/-- The header row `fields.join(',')` of `handleExportCSV` (unquoted). -/
def csvHeader : String :=
  "firstname,lastname,email,phone,streetaddress,postcode,city"

/-- `value.replace(/"/g, '""')`: every double quote doubled, no other
character touched. -/
def escapeChars : List Char → List Char
  | [] => []
  | c :: cs => if c = '"' then '"' :: '"' :: escapeChars cs else c :: escapeChars cs

/-- Wrap an escaped value in double quotes (character level). -/
def quoteChars (v : List Char) : List Char :=
  '"' :: (escapeChars v ++ ['"'])

/-- One serialized CSV cell of `handleExportCSV`. -/
def csvCell (value : String) : String :=
  String.mk (quoteChars value.data)

/-- The seven serialized cells of one customer row, in `csvFields`
order. -/
def customerCsvCells (c : CustomerJson) : List String :=
  csvFields.map (fun field => csvCell (jsString (getFieldJson c field)))

/-- `Array.prototype.join(',')` at character level. -/
def csvJoinComma : List (List Char) → List Char
  | [] => []
  | [x] => x
  | x :: xs => x ++ ',' :: csvJoinComma xs

/-- `Array.prototype.join('\n')` at character level. -/
def csvJoinNewline : List (List Char) → List Char
  | [] => []
  | [x] => x
  | x :: xs => x ++ '\n' :: csvJoinNewline xs

/-- One customer row of the export, cells joined by commas. -/
def customerCsvRowChars (c : CustomerJson) : List Char :=
  csvJoinComma ((customerCsvCells c).map String.data)

/-- The CSV document of `handleExportCSV`: header row, one row per
customer, rows joined by newlines. -/
def handleExportCSV (customers : List CustomerJson) : String :=
  String.mk (csvJoinNewline (csvHeader.data :: customers.map customerCsvRowChars))

/-- Scanner modes of the standard-rules CSV reader: inside an unquoted
field, inside a quoted field, or just after a closing quote (where a
second quote means an escaped quote). -/
inductive CsvMode where
  | normal
  | quoted
  | afterQuote
deriving Repr, DecidableEq

/-- One-pass CSV scanner implementing standard (RFC-4180 style) rules:
quoted fields may contain commas, newlines and doubled quotes; a quote
opens a field only at field start; commas separate fields and newlines
separate records. Accumulates the current field, the current record and
the finished records. -/
def csvScan (mode : CsvMode) : List Char → List Char → List (List Char) →
    List (List (List Char)) → List (List (List Char))
  | [], field, record, records => records ++ [record ++ [field]]
  | c :: rest, field, record, records =>
    match mode with
    | CsvMode.normal =>
      if c = '"' ∧ field = [] then csvScan CsvMode.quoted rest field record records
      else if c = ',' then csvScan CsvMode.normal rest [] (record ++ [field]) records
      else if c = '\n' then csvScan CsvMode.normal rest [] [] (records ++ [record ++ [field]])
      else csvScan CsvMode.normal rest (field ++ [c]) record records
    | CsvMode.quoted =>
      if c = '"' then csvScan CsvMode.afterQuote rest field record records
      else csvScan CsvMode.quoted rest (field ++ [c]) record records
    | CsvMode.afterQuote =>
      if c = '"' then csvScan CsvMode.quoted rest (field ++ ['"']) record records
      else if c = ',' then csvScan CsvMode.normal rest [] (record ++ [field]) records
      else if c = '\n' then csvScan CsvMode.normal rest [] [] (records ++ [record ++ [field]])
      else csvScan CsvMode.normal rest (field ++ [c]) record records

/-- Standard-rules CSV parse of a whole document: a list of records,
each a list of field values. -/
def csvParse (s : String) : List (List String) :=
  (csvScan CsvMode.normal s.data [] [] []).map (fun record => record.map String.mk)

/-- The UI state of `TrainingList.tsx` touched by `fetchTrainings`. -/
structure TrainingListState where
  trainings : List TrainingRow
  loading : Bool
  searchTerm : String
  deleteDialogOpen : Bool
  selectedTrainingId : Option Int
deriving Repr, DecidableEq

/-- The UI state of `CustomerList.tsx` touched by `fetchCustomers`. -/
structure CustomerListState where
  customers : List Customer
  loading : Bool
  searchTerm : String
  customerDialogOpen : Bool
  trainingDialogOpen : Bool
  deleteDialogOpen : Bool
  selectedCustomer : Option Customer
  selectedCustomerUrl : String
  isEditing : Bool
deriving Repr, DecidableEq

/-- Outcome of an awaited API call: parsed data or a rejection. -/
inductive FetchResult (α : Type) where
  | ok (data : α)
  | error (msg : String)
deriving Repr, DecidableEq

/-- State update of `fetchTrainings` in `TrainingList.tsx`: on success
`setTrainings(data)` then (finally) `setLoading(false)`; on failure the
catch block only logs and toasts, then (finally) `setLoading(false)`. -/
def fetchTrainingsUpdate (s : TrainingListState) :
    FetchResult (List TrainingRow) → TrainingListState
  | FetchResult.ok data => { s with trainings := data, loading := false }
  | FetchResult.error _ => { s with loading := false }

/-- State update of `fetchCustomers` in `CustomerList.tsx`, same
try/catch/finally shape. -/
def fetchCustomersUpdate (s : CustomerListState) :
    FetchResult (List Customer) → CustomerListState
  | FetchResult.ok data => { s with customers := data, loading := false }
  | FetchResult.error _ => { s with loading := false }

/-- Concrete customer used by witnesses. -/
def customerEx : Customer :=
  { firstname := "Ann"
    lastname := "Bee"
    streetaddress := "Street 1"
    postcode := "00100"
    city := "Helsinki"
    email := "ann@example.com"
    phone := "040123"
    selfLink := some "https://host/api/customers/1" }

/-- Concrete training with a parsable date, used by witnesses. -/
def trainingEx : Training :=
  { id := 1
    date := "2024-01-15T10:00"
    duration := 60
    activity := "Yoga"
    customer := customerEx }

/-- Concrete training whose date string is not a valid ISO-8601 date. -/
def badDateTrainingEx : Training :=
  { id := 7
    date := "not-a-date"
    duration := 30
    activity := "Yoga"
    customer := customerEx }

/-- Concrete raw customer record with an absent firstname field. -/
def customerJsonEx : CustomerJson :=
  { firstname := none
    lastname := some "Bee"
    email := some "ann@example.com"
    phone := some "040123"
    streetaddress := some "Street 1"
    postcode := some "00100"
    city := some "Helsinki" }

/-- Concrete raw training with a non-numeric duration. -/
def trainingJsEx : TrainingJs :=
  { activity := "Yoga", duration := JsValue.str "abc" }

/-- Concrete training whose activity name is the integer-like key `2`. -/
def trainingAct2Ex : Training :=
  { id := 2
    date := "2024-01-15"
    duration := 60
    activity := "2"
    customer := customerEx }

/-- Concrete training whose activity name is the integer-like key `1`. -/
def trainingAct1Ex : Training :=
  { id := 3
    date := "2024-01-16"
    duration := 60
    activity := "1"
    customer := customerEx }

/-! Helper lemmas about the string model. -/

/-- The empty pattern occurs in every character list. -/
theorem jsIncludesChars_nil (l : List Char) : jsIncludesChars [] l = true := by
  induction l with
  | nil => rfl
  | cons c rest ih => simp [jsIncludesChars]

/-- The boolean inclusion test agrees with the contiguous-sublist
relation. -/
theorem jsIncludesChars_iff_infix (p l : List Char) :
    jsIncludesChars p l = true ↔ p <:+: l := by
  induction l with
  | nil =>
    simp only [jsIncludesChars, List.isEmpty_iff, List.infix_nil]
  | cons c rest ih =>
    simp only [jsIncludesChars, Bool.or_eq_true, List.isPrefixOf_iff_prefix, ih,
      List.infix_cons_iff]

/-- Every string includes the empty string. -/
theorem jsIncludes_empty (s : String) : jsIncludes s "" = true := by
  simpa [jsIncludes] using jsIncludesChars_nil s.data

/-- C8. Filtering with the empty search term is the identity on both
collections: the empty lowercased term is included in every field, so
every customer and every training matches and the filters return the
original lists unchanged, order included. -/
theorem filter_empty_term_identity (customers : List Customer) (trainings : List TrainingRow) :
    filteredCustomers "" customers = customers ∧ filteredTrainings "" trainings = trainings := by
  constructor
  · exact List.filter_eq_self.mpr (fun c _ => by
      simp [customerMatches, jsIncludes_empty, jsToLower])
  · exact List.filter_eq_self.mpr (fun t _ => by
      simp [trainingMatches, jsIncludes_empty, jsToLower])

/-- C6. The training filter predicate holds exactly when the lowercased
term occurs in the lowercased activity, or the customer is present and
the term occurs in the lowercased concatenation of firstname, a space
and lastname; an absent customer simply disables the second clause (the
predicate is total, nothing is raised). -/
theorem trainingMatches_characterization (term : String) (t : TrainingRow) :
    trainingMatches term t = true ↔
      ((jsToLower term).data <:+: (jsToLower t.activity).data ∨
        ∃ c, t.customer = some c ∧
          (jsToLower term).data <:+: (jsToLower (c.firstname ++ " " ++ c.lastname)).data) := by
  cases hc : t.customer with
  | none =>
    simp [trainingMatches, hc, jsIncludes, jsIncludesChars_iff_infix]
  | some c =>
    simp [trainingMatches, hc, jsIncludes, jsIncludesChars_iff_infix]

/-- C9. A failed fetch leaves every state field unchanged except the
loading flag, which is cleared: the catch block only logs and toasts,
and the finally block does `setLoading(false)`. This holds for both the
training page and the customer page. -/
theorem fetch_error_preserves_state (s : TrainingListState) (s2 : CustomerListState)
    (e e2 : String) :
    fetchTrainingsUpdate s (FetchResult.error e) = { s with loading := false } ∧
      fetchCustomersUpdate s2 (FetchResult.error e2) = { s2 with loading := false } :=
  ⟨rfl, rfl⟩

/-- C1. The calendar transformation maps each training to one event in
order (so length and order are preserved), and whenever the parsed
start time is a real timestamp the end is start plus
`duration * 60000` milliseconds, so the end minus start difference in
minutes is exactly the training's duration. -/
theorem calendarEvents_length_order_duration (ts : List Training) :
    (calendarEvents ts).length = ts.length ∧
      (∀ i : Nat, (calendarEvents ts)[i]? = Option.map calendarEvent ts[i]?) ∧
      (∀ t ∈ ts, ∀ s e : Int,
        (calendarEvent t).start = some s → (calendarEvent t).endTime = some e →
          e = s + t.duration * 60000 ∧ (e - s) / 60000 = t.duration) := by
  refine ⟨List.length_map ts calendarEvent, fun i => List.getElem?_map calendarEvent ts i,
    fun t _ s e hs he => ?_⟩
  have hs' : jsDateParse t.date = some s := hs
  have he' : (jsDateParse t.date).map (fun ms => ms + t.duration * 60000) = some e := he
  rw [hs'] at he'
  have he2 : s + t.duration * 60000 = e := by simpa using he'
  refine ⟨he2.symm, ?_⟩
  rw [← he2]
  have : s + t.duration * 60000 - s = t.duration * 60000 := by ring
  rw [this]
  exact Int.mul_ediv_cancel t.duration (by norm_num)

/-- Witness for C1 at a concrete training whose date parses. -/
theorem calendarEvents_length_order_duration_witness :
    (63830113200000 : Int) = 63830109600000 + trainingEx.duration * 60000 ∧
      ((63830113200000 : Int) - 63830109600000) / 60000 = trainingEx.duration :=
  (calendarEvents_length_order_duration [trainingEx]).2.2 trainingEx
    (List.mem_singleton.mpr rfl) 63830109600000 63830113200000 rfl rfl

/-- C5. Evaluation at a training whose date string is not a valid
ISO-8601 date: the code does not fail with a DateParseError; it
silently produces a calendar event whose start and end are the invalid
date (NaN timestamp, modelled as `none`), and the batch is otherwise
intact. The claim describes the spec's intended design, which the code
does not implement. -/
theorem calendarEvents_invalidDate_silent :
    jsDateParse badDateTrainingEx.date = none ∧
      calendarEvents [badDateTrainingEx] =
        [{ id := 7, title := "Yoga / Ann Bee", start := none, endTime := none,
           customer := "Ann Bee" }] :=
  ⟨rfl, rfl⟩

/-! Helper lemmas about first-occurrence deduplication. -/

/-- Membership is preserved by first-occurrence deduplication. -/
theorem mem_firstDedup {a : String} : ∀ l : List String, a ∈ firstDedup l ↔ a ∈ l := by
  intro l
  induction l with
  | nil => simp [firstDedup]
  | cons c rest ih =>
    by_cases hac : a = c
    · subst hac
      simp [firstDedup]
    · simp only [firstDedup, List.mem_cons, List.mem_filter, ih, decide_eq_true_eq]
      constructor
      · rintro (h | ⟨h, _⟩)
        · exact Or.inl h
        · exact Or.inr h
      · rintro (h | h)
        · exact Or.inl h
        · exact Or.inr ⟨h, by simpa using hac⟩

/-- First-occurrence deduplication yields a duplicate-free list. -/
theorem nodup_firstDedup : ∀ l : List String, (firstDedup l).Nodup := by
  intro l
  induction l with
  | nil => simp [firstDedup]
  | cons c rest ih =>
    refine List.Pairwise.cons (fun b hb => ?_) (List.Pairwise.filter _ ih)
    have := (List.mem_filter.mp hb).2
    simp only [decide_eq_true_eq] at this
    exact fun hcb => this hcb.symm

/-- The deduplicated keys appear in strictly increasing position of
first occurrence. -/
theorem pairwise_indexOf_firstDedup : ∀ l : List String,
    List.Pairwise (fun a b => l.indexOf a < l.indexOf b) (firstDedup l) := by
  intro l
  induction l with
  | nil => simp [firstDedup]
  | cons c rest ih =>
    refine List.Pairwise.cons (fun b hb => ?_) ?_
    · have hbne : b ≠ c := by
        have := (List.mem_filter.mp hb).2
        simpa using this
      rw [List.indexOf_cons_self, List.indexOf_cons_ne rest (fun h => hbne h.symm)]
      exact Nat.succ_pos _
    · refine List.Pairwise.imp_of_mem ?_ (List.Pairwise.filter _ ih)
      intro a b ha hb hab
      have hane : a ≠ c := by
        have := (List.mem_filter.mp ha).2
        simpa using this
      have hbne : b ≠ c := by
        have := (List.mem_filter.mp hb).2
        simpa using this
      rw [List.indexOf_cons_ne rest (fun h => hane h.symm),
        List.indexOf_cons_ne rest (fun h => hbne h.symm)]
      exact Nat.succ_lt_succ hab

/-! Helper lemmas about the own-property enumeration order. -/

/-- Insertion into the index-key sort is a permutation. -/
theorem perm_insertIndexKey (x : String) :
    ∀ l : List String, (insertIndexKey x l).Perm (x :: l) := by
  intro l
  induction l with
  | nil => simp [insertIndexKey]
  | cons y ys ih =>
    by_cases h : (arrayIndexValue? x).getD 0 ≤ (arrayIndexValue? y).getD 0
    · simp [insertIndexKey, h]
    · rw [insertIndexKey, if_neg h]
      exact (ih.cons y).trans (List.Perm.swap x y ys)

/-- The index-key sort is a permutation. -/
theorem perm_sortIndexKeys : ∀ l : List String, (sortIndexKeys l).Perm l := by
  intro l
  induction l with
  | nil => simp [sortIndexKeys]
  | cons x xs ih => exact (perm_insertIndexKey x (sortIndexKeys xs)).trans (ih.cons x)

/-- The enumeration order is a permutation of the creation order. -/
theorem perm_jsObjectKeys (l : List String) : (jsObjectKeys l).Perm (firstDedup l) :=
  ((perm_sortIndexKeys _).append_right _).trans
    (List.filter_append_perm _ (firstDedup l))

/-- The enumeration order is duplicate free. -/
theorem nodup_jsObjectKeys (l : List String) : (jsObjectKeys l).Nodup :=
  ((perm_jsObjectKeys l).nodup_iff).mpr (nodup_firstDedup l)

/-- Membership in the enumeration order. -/
theorem mem_jsObjectKeys {a : String} (l : List String) :
    a ∈ jsObjectKeys l ↔ a ∈ l :=
  ((perm_jsObjectKeys l).mem_iff).trans (mem_firstDedup l)

/-- Without integer-like keys the enumeration order is exactly the
first-encountered order. -/
theorem jsObjectKeys_eq_firstDedup (l : List String)
    (h : ∀ a ∈ l, isArrayIndexKey a = false) : jsObjectKeys l = firstDedup l := by
  have h1 : (firstDedup l).filter (fun s => isArrayIndexKey s) = [] := by
    rw [List.filter_eq_nil_iff]
    intro a ha
    simp [h a ((mem_firstDedup l).mp ha)]
  have h2 : (firstDedup l).filter (fun s => ! isArrayIndexKey s) = firstDedup l := by
    refine List.filter_eq_self.mpr ?_
    intro a ha
    simp [h a ((mem_firstDedup l).mp ha)]
  rw [jsObjectKeys, h1, h2]
  rfl

/-- Positions strictly increase along any duplicate-free list. -/
theorem pairwise_indexOf_self : ∀ l : List String, l.Nodup →
    List.Pairwise (fun a b => l.indexOf a < l.indexOf b) l := by
  intro l
  induction l with
  | nil => simp
  | cons c rest ih =>
    intro h
    rcases List.pairwise_cons.mp h with ⟨hc, hrest⟩
    refine List.Pairwise.cons ?_ ?_
    · intro b hb
      rw [List.indexOf_cons_self, List.indexOf_cons_ne rest (hc b hb)]
      exact Nat.succ_pos _
    · refine List.Pairwise.imp_of_mem ?_ (ih hrest)
      intro a b ha hb hab
      rw [List.indexOf_cons_ne rest (hc a ha), List.indexOf_cons_ne rest (hc b hb)]
      exact Nat.succ_lt_succ hab

/-! Helper lemmas about the stable insertion sort. -/

/-- Membership through one insertion step. -/
theorem mem_insertStat {x y : ActivityStats} :
    ∀ l : List ActivityStats, y ∈ insertStat x l ↔ y = x ∨ y ∈ l := by
  intro l
  induction l with
  | nil => simp [insertStat]
  | cons z zs ih =>
    by_cases h : z.duration ≤ x.duration
    · simp [insertStat, h]
    · simp only [insertStat, if_neg h, List.mem_cons, ih]
      tauto

/-- One insertion step is a permutation. -/
theorem perm_insertStat (x : ActivityStats) :
    ∀ l : List ActivityStats, (insertStat x l).Perm (x :: l) := by
  intro l
  induction l with
  | nil => simp [insertStat]
  | cons z zs ih =>
    by_cases h : z.duration ≤ x.duration
    · simp [insertStat, h]
    · rw [insertStat, if_neg h]
      exact (ih.cons z).trans (List.Perm.swap x z zs)

/-- The sort is a permutation of its input. -/
theorem perm_sortStats : ∀ l : List ActivityStats, (sortStats l).Perm l := by
  intro l
  induction l with
  | nil => simp [sortStats]
  | cons x xs ih =>
    exact (perm_insertStat x (sortStats xs)).trans (ih.cons x)

/-- Inserting into a non-increasing list keeps it non-increasing. -/
theorem sorted_insertStat (x : ActivityStats) :
    ∀ l : List ActivityStats,
      List.Pairwise (fun a b => b.duration ≤ a.duration) l →
      List.Pairwise (fun a b => b.duration ≤ a.duration) (insertStat x l) := by
  intro l
  induction l with
  | nil => simp [insertStat]
  | cons z zs ih =>
    intro h
    rcases List.pairwise_cons.mp h with ⟨hz, hzs⟩
    by_cases hle : z.duration ≤ x.duration
    · rw [insertStat, if_pos hle]
      refine List.Pairwise.cons ?_ h
      intro b hb
      rcases List.mem_cons.mp hb with hb | hb
      · exact hb ▸ hle
      · exact le_trans (hz b hb) hle
    · rw [insertStat, if_neg hle]
      refine List.Pairwise.cons ?_ (ih hzs)
      intro b hb
      rcases (mem_insertStat _).mp hb with hb | hb
      · exact hb ▸ le_of_lt (lt_of_not_le hle)
      · exact hz b hb

/-- The sort output is non-increasing by duration. -/
theorem sorted_sortStats : ∀ l : List ActivityStats,
    List.Pairwise (fun a b => b.duration ≤ a.duration) (sortStats l) := by
  intro l
  induction l with
  | nil => simp [sortStats]
  | cons x xs ih => exact sorted_insertStat x (sortStats xs) ih

/-- Stability of one insertion step: a relation that is only demanded
on equal-duration pairs survives insertion, because the inserted
element passes only strictly larger elements. -/
theorem insertStat_pairwise_guard (P : ActivityStats → ActivityStats → Prop)
    (x : ActivityStats) :
    ∀ l : List ActivityStats,
      (∀ z ∈ l, x.duration = z.duration → P x z) →
      List.Pairwise (fun a b => a.duration = b.duration → P a b) l →
      List.Pairwise (fun a b => a.duration = b.duration → P a b) (insertStat x l) := by
  intro l
  induction l with
  | nil =>
    intro _ _
    simp [insertStat]
  | cons z zs ih =>
    intro h1 h2
    rcases List.pairwise_cons.mp h2 with ⟨hz, hzs⟩
    by_cases hle : z.duration ≤ x.duration
    · rw [insertStat, if_pos hle]
      exact List.Pairwise.cons (fun b hb => h1 b hb) h2
    · rw [insertStat, if_neg hle]
      refine List.Pairwise.cons ?_ (ih (fun z' hz' => h1 z' (List.mem_cons_of_mem z hz')) hzs)
      intro b hb
      rcases (mem_insertStat _).mp hb with hb | hb
      · subst hb
        intro hdur
        exact absurd (le_of_eq hdur) hle
      · exact hz b hb

/-- Stability of the sort: a relation demanded only on equal-duration
pairs is preserved from the input order to the sorted order. -/
theorem sortStats_pairwise_guard (P : ActivityStats → ActivityStats → Prop) :
    ∀ l : List ActivityStats,
      List.Pairwise (fun a b => a.duration = b.duration → P a b) l →
      List.Pairwise (fun a b => a.duration = b.duration → P a b) (sortStats l) := by
  intro l
  induction l with
  | nil =>
    intro _
    simp [sortStats]
  | cons x xs ih =>
    intro h
    rcases List.pairwise_cons.mp h with ⟨hx, hxs⟩
    refine insertStat_pairwise_guard P x (sortStats xs) ?_ (ih hxs)
    intro z hz
    exact hx z ((perm_sortStats xs).mem_iff.mp hz)

/-- C2, counterexample. With the equal-duration activities `2` (first
encountered) and `1` (second), `Object.entries` enumerates the
integer-like keys in ascending numeric order, so the program returns
the entry for `1` before the entry for `2`: the tie is not in
first-encountered order. -/
theorem fetchStats_tie_order_counterexample :
    fetchStats [trainingAct2Ex, trainingAct1Ex] =
        [⟨"1", 60⟩, ⟨"2", 60⟩] ∧
      ([trainingAct2Ex, trainingAct1Ex].map (fun t => t.activity)).indexOf "2" = 0 ∧
      ([trainingAct2Ex, trainingAct1Ex].map (fun t => t.activity)).indexOf "1" = 1 ∧
      ¬ List.Pairwise (fun a b => a.duration = b.duration →
          ([trainingAct2Ex, trainingAct1Ex].map (fun t => t.activity)).indexOf a.activity <
            ([trainingAct2Ex, trainingAct1Ex].map (fun t => t.activity)).indexOf b.activity)
        (fetchStats [trainingAct2Ex, trainingAct1Ex]) := by
  refine ⟨rfl, rfl, rfl, ?_⟩
  have heq : fetchStats [trainingAct2Ex, trainingAct1Ex] =
      [⟨"1", 60⟩, ⟨"2", 60⟩] := rfl
  rw [heq]
  intro h
  have hrel := (List.pairwise_cons.mp h).1 ⟨"2", 60⟩ (List.mem_singleton.mpr rfl)
  exact absurd (hrel rfl) (by decide)

/-- C2, amended. The statistics result is sorted by summed duration,
non-increasing, and the stable sort keeps equal-duration entries in the
order `Object.entries` enumerates the groups: integer-like activity
names first in ascending numeric order, then the remaining names in
first-encountered order. In particular, when no activity name is an
integer-like key, ties are exactly in first-encountered order. -/
theorem fetchStats_sorted_stable_jsOrder (ts : List Training) :
    List.Pairwise (fun a b => b.duration ≤ a.duration) (fetchStats ts) ∧
      List.Pairwise (fun a b => a.duration = b.duration →
          (jsObjectKeys (ts.map (fun t => t.activity))).indexOf a.activity <
            (jsObjectKeys (ts.map (fun t => t.activity))).indexOf b.activity)
        (fetchStats ts) ∧
      ((∀ t ∈ ts, isArrayIndexKey t.activity = false) →
        List.Pairwise (fun a b => a.duration = b.duration →
            (ts.map (fun t => t.activity)).indexOf a.activity <
              (ts.map (fun t => t.activity)).indexOf b.activity)
          (fetchStats ts)) := by
  refine ⟨sorted_sortStats (activityStats ts), ?_, ?_⟩
  · refine sortStats_pairwise_guard _ (activityStats ts) ?_
    refine List.Pairwise.map _ ?_
      (pairwise_indexOf_self _ (nodup_jsObjectKeys (ts.map (fun t => t.activity))))
    intro a b hab _
    exact hab
  · intro hnone
    have hkeys : jsObjectKeys (ts.map (fun t => t.activity)) =
        firstDedup (ts.map (fun t => t.activity)) := by
      refine jsObjectKeys_eq_firstDedup _ ?_
      intro a ha
      rcases List.mem_map.mp ha with ⟨t, ht, rfl⟩
      exact hnone t ht
    refine sortStats_pairwise_guard _ (activityStats ts) ?_
    simp only [activityStats]
    rw [hkeys]
    refine List.Pairwise.map _ ?_ (pairwise_indexOf_firstDedup (ts.map (fun t => t.activity)))
    intro a b hab _
    exact hab

/-- Witness for the amended C2 at a concrete input with no
integer-like activity name. -/
theorem fetchStats_sorted_stable_jsOrder_witness :
    List.Pairwise (fun a b => a.duration = b.duration →
        ([trainingEx].map (fun t => t.activity)).indexOf a.activity <
          ([trainingEx].map (fun t => t.activity)).indexOf b.activity)
      (fetchStats [trainingEx]) :=
  (fetchStats_sorted_stable_jsOrder [trainingEx]).2.2 (by decide)

/-- Splitting a duration sum along a boolean predicate. -/
theorem sumBy_filter_split (p : Training → Bool) :
    ∀ ts : List Training,
      sumBy (ts.filter p) + sumBy (ts.filter (fun t => ! p t)) = sumBy ts := by
  intro ts
  induction ts with
  | nil => simp [sumBy]
  | cons t rest ih =>
    cases hp : p t
    · have h1 : List.filter p (t :: rest) = List.filter p rest := by
        simp [List.filter_cons, hp]
      have h2 : List.filter (fun t => ! p t) (t :: rest) =
          t :: List.filter (fun t => ! p t) rest := by
        simp [List.filter_cons, hp]
      rw [h1, h2]
      simp only [sumBy, List.map_cons, List.sum_cons] at ih ⊢
      omega
    · have h1 : List.filter p (t :: rest) = t :: List.filter p rest := by
        simp [List.filter_cons, hp]
      have h2 : List.filter (fun t => ! p t) (t :: rest) =
          List.filter (fun t => ! p t) rest := by
        simp [List.filter_cons, hp]
      rw [h1, h2]
      simp only [sumBy, List.map_cons, List.sum_cons] at ih ⊢
      omega

/-- Conservation over any duplicate-free key list covering all
activities: summing the per-key filtered durations gives the total. -/
theorem sum_over_keys :
    ∀ (keys : List String) (ts : List Training), keys.Nodup →
      (∀ t ∈ ts, t.activity ∈ keys) →
      ((keys.map (fun a => sumBy (ts.filter (fun t => t.activity = a)))).sum = sumBy ts) := by
  intro keys
  induction keys with
  | nil =>
    intro ts _ hcov
    have : ts = [] := List.eq_nil_iff_forall_not_mem.mpr (fun t ht => by simpa using hcov t ht)
    subst this
    simp [sumBy]
  | cons a ks ih =>
    intro ts hnd hcov
    rcases List.pairwise_cons.mp hnd with ⟨hamem, hknd⟩
    have hstep : ∀ b ∈ ks,
        ts.filter (fun t => t.activity = b) =
          (ts.filter (fun t => ! (t.activity = a : Bool))).filter (fun t => t.activity = b) := by
      intro b hb
      rw [List.filter_filter]
      refine (List.filter_congr ?_).symm
      intro t _
      by_cases htb : t.activity = b
      · have hba : ¬ b = a := fun h => hamem b hb h.symm
        simp [htb, hba]
      · simp [htb]
    have hmapcongr :
        ks.map (fun b => sumBy (ts.filter (fun t => t.activity = b))) =
          ks.map (fun b => sumBy
            ((ts.filter (fun t => ! (t.activity = a : Bool))).filter
              (fun t => t.activity = b))) := by
      refine List.map_congr_left ?_
      intro b hb
      rw [hstep b hb]
    have hcov' : ∀ t ∈ ts.filter (fun t => ! (t.activity = a : Bool)), t.activity ∈ ks := by
      intro t ht
      rcases List.mem_filter.mp ht with ⟨htm, htp⟩
      have hne : t.activity ≠ a := by simpa using htp
      rcases List.mem_cons.mp (hcov t htm) with h | h
      · exact absurd h hne
      · exact h
    have hIH := ih (ts.filter (fun t => ! (t.activity = a : Bool))) hknd hcov'
    calc ((a :: ks).map (fun b => sumBy (ts.filter (fun t => t.activity = b)))).sum
        = sumBy (ts.filter (fun t => t.activity = a)) +
            (ks.map (fun b => sumBy (ts.filter (fun t => t.activity = b)))).sum := by
          simp
      _ = sumBy (ts.filter (fun t => t.activity = a)) +
            sumBy (ts.filter (fun t => ! (t.activity = a : Bool))) := by
          rw [hmapcongr, hIH]
      _ = sumBy ts := sumBy_filter_split (fun t => t.activity = a) ts

/-- C3. Conservation law: the durations of the statistics entries sum
to the total duration of all the input trainings. -/
theorem fetchStats_duration_conservation (ts : List Training) :
    ((fetchStats ts).map (fun st => st.duration)).sum = (ts.map (fun t => t.duration)).sum := by
  have hperm : ((fetchStats ts).map (fun st => st.duration)).Perm
      ((activityStats ts).map (fun st => st.duration)) :=
    List.Perm.map _ (perm_sortStats (activityStats ts))
  rw [hperm.sum_eq]
  have hmm : (activityStats ts).map (fun st => st.duration) =
      (jsObjectKeys (ts.map (fun t => t.activity))).map
        (fun a => sumBy (ts.filter (fun t => t.activity = a))) := by
    simp [activityStats, List.map_map, Function.comp]
  rw [hmm]
  have hcov : ∀ t ∈ ts, t.activity ∈ jsObjectKeys (ts.map (fun t => t.activity)) := by
    intro t ht
    exact (mem_jsObjectKeys _).mpr (List.mem_map_of_mem _ ht)
  exact sum_over_keys _ ts (nodup_jsObjectKeys _) hcov

/-! Helper lemmas about lodash summation over raw values. -/

/-- The `baseSum` fold yields a string whenever the accumulator already
is one or a string value remains in the list: the JavaScript `+`
operator concatenates once a string operand appears, it never raises. -/
theorem foldl_addSum_str :
    ∀ (vals : List JsValue) (acc : JsValue),
      ((∃ s, acc = JsValue.str s) ∨ (∃ s, JsValue.str s ∈ vals)) →
      ∃ s2, vals.foldl addSum acc = JsValue.str s2 := by
  intro vals
  induction vals with
  | nil =>
    intro acc h
    rcases h with ⟨s, hs⟩ | ⟨s, hs⟩
    · exact ⟨s, by simpa using hs⟩
    · exact absurd hs (List.not_mem_nil _)
  | cons v vs ih =>
    intro acc h
    rw [List.foldl_cons]
    rcases h with ⟨s, hs⟩ | ⟨s, hs⟩
    · subst hs
      refine ih (addSum (JsValue.str s) v) (Or.inl ?_)
      cases v with
      | num n => exact ⟨s ++ toString n, rfl⟩
      | str s2 => exact ⟨s ++ s2, rfl⟩
      | undef => exact ⟨s, rfl⟩
    · rcases List.mem_cons.mp hs with hv | hv
      · subst hv
        refine ih (addSum acc (JsValue.str s)) (Or.inl ?_)
        cases acc with
        | num n => exact ⟨toString n ++ s, rfl⟩
        | str s2 => exact ⟨s2 ++ s, rfl⟩
        | undef => exact ⟨s, rfl⟩
      · exact ih (addSum acc v) (Or.inr ⟨s, hv⟩)

/-- lodash `sumBy` over a list containing a string yields a string. -/
theorem sumByJs_str (vals : List JsValue) (h : ∃ s, JsValue.str s ∈ vals) :
    ∃ s2, sumByJs vals = JsValue.str s2 := by
  rcases h with ⟨s, hs⟩
  cases vals with
  | nil => exact absurd hs (List.not_mem_nil _)
  | cons v vs =>
    have hdef : sumByJs (v :: vs) = (v :: vs).foldl addSum JsValue.undef := rfl
    rw [hdef]
    exact foldl_addSum_str (v :: vs) JsValue.undef (Or.inr ⟨s, hs⟩)

/-- C4, counterexample. Evaluating the statistics transformation at a
training whose duration is the non-numeric value `"abc"`: the
aggregation does not fail — there is no `TypeMismatchError` anywhere in
the semantics of lodash `groupBy`/`sumBy`, which apply the JavaScript
`+` operator — and the result is an ordinary statistics list carrying
the string through. -/
theorem fetchStatsJs_string_duration_value :
    fetchStatsJs [trainingJsEx] = [⟨"Yoga", JsValue.str "abc"⟩] := rfl

/-- C4, amended. When some training carries a string duration, the
aggregation still succeeds and the entry for that training's activity
carries a string total (the JavaScript `+` operator concatenates); the
value is neither coerced to zero nor reported as an error. -/
theorem activityStatsJs_string_duration_propagates
    (ts : List TrainingJs) (t : TrainingJs) (ht : t ∈ ts)
    (hstr : ∃ s, t.duration = JsValue.str s) :
    ∃ s2, (⟨t.activity, JsValue.str s2⟩ : ActivityStatsJs) ∈ activityStatsJs ts := by
  rcases hstr with ⟨s, hs⟩
  have hkey : t.activity ∈ jsObjectKeys (ts.map (fun t => t.activity)) :=
    (mem_jsObjectKeys _).mpr (List.mem_map_of_mem _ ht)
  have hgrp : JsValue.str s ∈ (ts.filter (fun t2 => t2.activity = t.activity)).map
      (fun t2 => t2.duration) := by
    refine List.mem_map.mpr ⟨t, ?_, hs⟩
    exact List.mem_filter.mpr ⟨ht, by simp⟩
  rcases sumByJs_str _ ⟨s, hgrp⟩ with ⟨s2, hsum⟩
  refine ⟨s2, ?_⟩
  have : (⟨t.activity, sumByJs ((ts.filter (fun t2 => t2.activity = t.activity)).map
      (fun t2 => t2.duration))⟩ : ActivityStatsJs) ∈ activityStatsJs ts := by
    exact List.mem_map.mpr ⟨t.activity, hkey, rfl⟩
  rwa [hsum] at this

/-- Witness for the amended C4 at a concrete one-element input. -/
theorem activityStatsJs_string_duration_witness :
    ∃ s2, (⟨"Yoga", JsValue.str s2⟩ : ActivityStatsJs) ∈ activityStatsJs [trainingJsEx] :=
  activityStatsJs_string_duration_propagates [trainingJsEx] trainingJsEx
    (List.mem_singleton.mpr rfl) ⟨"abc", rfl⟩

/-! Helper lemmas about the CSV printer and scanner. -/

/-- Unpacking a packed character list. -/
theorem data_mk (l : List Char) : (String.mk l).data = l := rfl

/-- Repacking a string's characters. -/
theorem mk_data (s : String) : String.mk s.data = s := rfl

/-- Scanning the escaped text of a field value inside quotes appends
exactly the original value to the field accumulator: a doubled quote is
read back as one quote, every other character as itself. -/
theorem csvScan_quoted_escape (v : List Char) :
    ∀ (rest field : List Char) (record : List (List Char))
      (records : List (List (List Char))),
      csvScan CsvMode.quoted (escapeChars v ++ rest) field record records =
        csvScan CsvMode.quoted rest (field ++ v) record records := by
  induction v with
  | nil =>
    intro rest field record records
    simp [escapeChars]
  | cons c cs ih =>
    intro rest field record records
    by_cases hc : c = '"'
    · subst hc
      simp [escapeChars, csvScan, ih, List.append_assoc]
    · simp [escapeChars, csvScan, hc, ih, List.append_assoc]

/-- Scanning one whole quoted cell from field start consumes it and
leaves the scanner just after the closing quote with the raw value as
the current field. -/
theorem csvScan_cell (v : List Char) (rest : List Char) (record : List (List Char))
    (records : List (List (List Char))) :
    csvScan CsvMode.normal (quoteChars v ++ rest) [] record records =
      csvScan CsvMode.afterQuote rest v record records := by
  have h1 : quoteChars v ++ rest = '"' :: (escapeChars v ++ ('"' :: rest)) := by
    simp [quoteChars]
  rw [h1]
  have h2 : csvScan CsvMode.normal ('"' :: (escapeChars v ++ ('"' :: rest))) [] record records =
      csvScan CsvMode.quoted (escapeChars v ++ ('"' :: rest)) [] record records := by
    simp [csvScan]
  rw [h2, csvScan_quoted_escape]
  simp [csvScan]

/-- A comma right after a closing quote ends the field. -/
theorem csvScan_afterQuote_comma (z field : List Char) (record : List (List Char))
    (records : List (List (List Char))) :
    csvScan CsvMode.afterQuote (',' :: z) field record records =
      csvScan CsvMode.normal z [] (record ++ [field]) records := by
  simp [csvScan]

/-- A newline right after a closing quote ends the record. -/
theorem csvScan_afterQuote_newline (z field : List Char) (record : List (List Char))
    (records : List (List (List Char))) :
    csvScan CsvMode.afterQuote ('\n' :: z) field record records =
      csvScan CsvMode.normal z [] [] (records ++ [record ++ [field]]) := by
  simp [csvScan]

/-- A newline in normal mode ends the record. -/
theorem csvScan_newline (z field : List Char) (record : List (List Char))
    (records : List (List (List Char))) :
    csvScan CsvMode.normal ('\n' :: z) field record records =
      csvScan CsvMode.normal z [] [] (records ++ [record ++ [field]]) := by
  simp [csvScan]

/-- Scanning a printed row of quoted cells accumulates all but the last
cell into the record and leaves the last cell as the current field,
just after its closing quote. -/
theorem csvScan_row : ∀ (vals : List (List Char)) (h : vals ≠ [])
    (rest : List Char) (record : List (List Char)) (records : List (List (List Char))),
    csvScan CsvMode.normal (csvJoinComma (vals.map quoteChars) ++ rest) [] record records =
      csvScan CsvMode.afterQuote rest (vals.getLast h) (record ++ vals.dropLast) records := by
  intro vals
  induction vals with
  | nil => intro h; exact absurd rfl h
  | cons v vs ih =>
    intro h rest record records
    cases vs with
    | nil =>
      simp only [List.map_cons, List.map_nil, csvJoinComma, csvScan_cell]
      simp [List.getLast, List.dropLast]
    | cons v2 vs2 =>
      have hJ : csvJoinComma ((v :: v2 :: vs2).map quoteChars) =
          quoteChars v ++ (',' :: csvJoinComma ((v2 :: vs2).map quoteChars)) := by
        simp [csvJoinComma]
      rw [hJ, List.append_assoc, csvScan_cell, List.cons_append, csvScan_afterQuote_comma,
        ih (by simp) rest (record ++ [v]) records]
      have hlast : (v :: v2 :: vs2).getLast h = (v2 :: vs2).getLast (by simp) := by
        simp [List.getLast]
      have hdrop : (v :: v2 :: vs2).dropLast = v :: (v2 :: vs2).dropLast := by
        simp [List.dropLast]
      rw [hlast, hdrop]
      simp [List.append_assoc]

/-- Scanning the printed body rows recovers exactly the raw rows, in
order, appended to the finished records. -/
theorem csvScan_rows : ∀ (rows : List (List (List Char))), rows ≠ [] →
    (∀ r ∈ rows, r ≠ []) →
    ∀ records : List (List (List Char)),
      csvScan CsvMode.normal
          (csvJoinNewline (rows.map (fun vals => csvJoinComma (vals.map quoteChars))))
          [] [] records
        = records ++ rows := by
  intro rows
  induction rows with
  | nil => intro h; exact absurd rfl h
  | cons vals more ih =>
    intro _ hne records
    have hv : vals ≠ [] := hne vals (List.mem_cons_self _ _)
    cases more with
    | nil =>
      have hJ : csvJoinNewline ([vals].map (fun vals => csvJoinComma (vals.map quoteChars))) =
          csvJoinComma (vals.map quoteChars) ++ ([] : List Char) := by
        simp [csvJoinNewline]
      rw [hJ, csvScan_row vals hv [] [] records, csvScan]
      simp [List.dropLast_append_getLast hv]
    | cons vals2 more2 =>
      have hJ : csvJoinNewline ((vals :: vals2 :: more2).map
            (fun vals => csvJoinComma (vals.map quoteChars))) =
          csvJoinComma (vals.map quoteChars) ++
            ('\n' :: csvJoinNewline ((vals2 :: more2).map
              (fun vals => csvJoinComma (vals.map quoteChars)))) := by
        simp [csvJoinNewline]
      rw [hJ, csvScan_row vals hv _ [] records, csvScan_afterQuote_newline,
        ih (by simp) (fun r hr => hne r (List.mem_cons_of_mem _ hr))]
      simp [List.dropLast_append_getLast hv, List.append_assoc]

set_option maxRecDepth 16384 in
/-- Scanning the unquoted header leaves the last header field as the
current field and the first six in the current record. -/
theorem csvScan_header (rest : List Char) (records : List (List (List Char))) :
    csvScan CsvMode.normal (csvHeader.data ++ rest) [] [] records =
      csvScan CsvMode.normal rest "city".data
        ["firstname".data, "lastname".data, "email".data, "phone".data,
         "streetaddress".data, "postcode".data] records := rfl

/-- The printed characters of one customer row are the comma join of
the quoted raw cell values. -/
theorem customerCsvRowChars_eq (cj : CustomerJson) :
    customerCsvRowChars cj =
      csvJoinComma ((csvFields.map
        (fun f => (jsString (getFieldJson cj f)).data)).map quoteChars) := by
  simp [customerCsvRowChars, customerCsvCells, csvCell, List.map_map, Function.comp_def,
    data_mk]

/-- Raw cell values of a typed customer, evaluated fieldwise. -/
theorem customer_fields_eval (c : Customer) :
    csvFields.map (fun f => jsString (getFieldJson (Customer.toJson c) f)) =
      [c.firstname, c.lastname, c.email, c.phone, c.streetaddress, c.postcode, c.city] := rfl

/-- C7. Round trip: parsing the exported CSV document with standard
CSV rules recovers the header and, for every customer, the exact seven
field values in export order — including values containing embedded
quote characters, commas or newlines, which travel inside the quoted
cells with quotes doubled. -/
theorem csv_export_roundTrip (cs : List Customer) :
    csvParse (handleExportCSV (cs.map Customer.toJson)) =
      csvFields :: cs.map (fun c =>
        [c.firstname, c.lastname, c.email, c.phone, c.streetaddress, c.postcode, c.city]) := by
  cases cs with
  | nil => rfl
  | cons c0 cs' =>
    have hrows : ((c0 :: cs').map Customer.toJson).map customerCsvRowChars =
        ((c0 :: cs').map (fun c => csvFields.map
            (fun f => (jsString (getFieldJson (Customer.toJson c) f)).data))).map
          (fun vals => csvJoinComma (vals.map quoteChars)) := by
      simp only [List.map_map]
      refine List.map_congr_left ?_
      intro c _
      simp [Function.comp_def, customerCsvRowChars_eq]
    have hsplit : csvJoinNewline (csvHeader.data ::
          ((c0 :: cs').map Customer.toJson).map customerCsvRowChars) =
        csvHeader.data ++ ('\n' :: csvJoinNewline
          ((((c0 :: cs').map (fun c => csvFields.map
              (fun f => (jsString (getFieldJson (Customer.toJson c) f)).data))).map
            (fun vals => csvJoinComma (vals.map quoteChars))))) := by
      rw [hrows]
      simp [csvJoinNewline]
    have hparse : csvParse (handleExportCSV ((c0 :: cs').map Customer.toJson)) =
        (csvScan CsvMode.normal
          (csvJoinNewline (csvHeader.data ::
            ((c0 :: cs').map Customer.toJson).map customerCsvRowChars)) [] [] []).map
          (fun record => record.map String.mk) := rfl
    have hne2 : ∀ r ∈ (c0 :: cs').map (fun c => csvFields.map
        (fun f => (jsString (getFieldJson (Customer.toJson c) f)).data)), r ≠ [] := by
      intro r hr
      rcases List.mem_map.mp hr with ⟨c, _, rfl⟩
      simp [csvFields]
    rw [hparse, hsplit, csvScan_header, csvScan_newline, csvScan_rows _ (by simp) hne2 _]
    simp only [List.nil_append, List.cons_append, List.singleton_append, List.map_cons,
      List.map_map]
    refine congrArg₂ List.cons ?_ ?_
    · rfl
    · refine congrArg₂ List.cons ?_ ?_
      · simp [Function.comp_def, List.map_map, mk_data, customer_fields_eval c0]
      · refine List.map_congr_left ?_
        intro c _
        simp [Function.comp_def, List.map_map, mk_data, customer_fields_eval c]

/-- C10. When one of the seven exported fields is absent from a raw
customer record, the export still produces exactly seven cells for that
row, and the cell at the absent field's position is the quoted literal
text `undefined` (the result of JavaScript `String(undefined)`), not an
empty field. -/
theorem csv_missing_field_undefined (c : CustomerJson) (i : Nat) :
    (customerCsvCells c).length = 7 ∧
      (∀ f, csvFields[i]? = some f → getFieldJson c f = none →
        (customerCsvCells c)[i]? = some "\"undefined\"") := by
  constructor
  · rfl
  · intro f hf hnone
    have : (customerCsvCells c)[i]? =
        Option.map (fun field => csvCell (jsString (getFieldJson c field))) csvFields[i]? := by
      simp [customerCsvCells, List.getElem?_map]
    rw [this, hf]
    simp [hnone]
    rfl

/-- Witness for C10 at a concrete record lacking its firstname. -/
theorem csv_missing_field_undefined_witness :
    (customerCsvCells customerJsonEx).length = 7 ∧
      (customerCsvCells customerJsonEx)[0]? = some "\"undefined\"" := by
  have h := csv_missing_field_undefined customerJsonEx 0
  exact ⟨h.1, h.2 "firstname" rfl rfl⟩
